import Mathlib

/-! Verification development for the request-synthesis core of the x8
repository (`src/network/request.rs`, `src/network/utils.rs`).

Modelling conventions:
* Rust `String`/`&str` values are `List Char` (`Str`); the string
  operations the source uses (`contains`, `find`, `replace`, `split`,
  `starts_with`, `pop`, `is_empty`) are given exact executable models
  below (`containsSeq`, `findSeq`, `replaceSeq`, `splitSeq`, ...).
  `replace`/`split` are implemented with a fuel argument (fuel = length
  of the scanned string, always sufficient) so that they stay
  structurally recursive and kernel-computable.
* `random_line` draws are modelled by an oracle `g : Nat → Str` together
  with an explicit draw counter threaded through `prepare`; one call of
  `random_line` consumes one index, in source order.
* `unreachable!()` and a panicking `unwrap()` are modelled as `none`.
* `utf8_percent_encode` with the `FRAGMENT` set is modelled per
  character for ASCII inputs (for ASCII, one char is one byte); all
  concrete inputs used below are ASCII.
* `reqwest` transport, URL parsing and the tokio timers are external;
  `send_by` is modelled over an outcome oracle and an event trace
  (sleeps and executed requests), see `send_by` below.
-/

set_option linter.unusedVariables false
set_option linter.unnecessarySeqFocus false

abbrev Str := List Char

/-- `leadsWith pat s` models Rust `s.starts_with(pat)`. -/
def leadsWith : Str → Str → Bool
  | [], _ => true
  | _ :: _, [] => false
  | a :: ta, b :: tb => if a = b then leadsWith ta tb else false

/-- `findSeq pat s` models Rust `s.find(pat)`: index of the first
occurrence of the substring `pat` in `s`. -/
def findSeq (pat : Str) : Str → Option Nat
  | [] => if leadsWith pat [] then some 0 else none
  | c :: rest =>
    if leadsWith pat (c :: rest) then some 0
    else (findSeq pat rest).map (· + 1)

/-- `containsSeq pat s` models Rust `s.contains(pat)`. -/
def containsSeq (pat s : Str) : Bool := (findSeq pat s).isSome

/-- Number of positions of `s` at which the substring `pat` occurs
(spec-side measure used to state the "exactly one `%s` marker"
invariant; for the marker `%s` occurrences cannot overlap). -/
def countSeq (pat : Str) : Str → Nat
  | [] => 0
  | c :: rest => (if leadsWith pat (c :: rest) then 1 else 0) + countSeq pat rest

/-- Fueled worker for `splitSeq`. -/
def splitSeqF (sep : Str) : Nat → Str → List Str
  | 0, s => [s]
  | fuel + 1, s =>
    match findSeq sep s with
    | none => [s]
    | some i => s.take i :: splitSeqF sep fuel (s.drop (i + sep.length))

/-- `splitSeq sep s` models Rust `s.split(sep)` (for nonempty `sep`). -/
def splitSeq (sep s : Str) : List Str := splitSeqF sep s.length s

/-- Fueled worker for `replaceSeq`. -/
def replaceSeqF (pat rep : Str) : Nat → Str → Str
  | 0, s => s
  | fuel + 1, s =>
    match findSeq pat s with
    | none => s
    | some i => s.take i ++ rep ++ replaceSeqF pat rep fuel (s.drop (i + pat.length))

/-- `replaceSeq pat rep s` models Rust `s.replace(pat, rep)`: every
non-overlapping occurrence of `pat`, scanned left to right, is replaced
by `rep`; the replacement text is not rescanned. -/
def replaceSeq (pat rep s : Str) : Str := replaceSeqF pat rep s.length s

/-- `joinSeq sep parts` models Rust `parts.join(sep)`. -/
def joinSeq (sep : Str) : List Str → Str
  | [] => []
  | [x] => x
  | x :: y :: t => x ++ sep ++ joinSeq sep (y :: t)

/-- Upper-case hex digit, as emitted by the `percent_encoding` crate. -/
def hexDigit (n : Nat) : Char :=
  if n < 10 then Char.ofNat (48 + n) else Char.ofNat (55 + n)

/-- The `FRAGMENT` set of `src/network/utils.rs`: the C0 controls and
DEL (`CONTROLS`) plus space `"` `<` `>` backtick `&` `#` `;` `/` `=` `%`
(listed by code point). -/
def inFragment (c : Char) : Bool :=
  c.toNat < 32 || c.toNat == 127 ||
    [32, 34, 60, 62, 96, 38, 35, 59, 47, 61, 37].contains c.toNat

/-- One step of `utf8_percent_encode` (ASCII character = one byte). -/
def encodeChar (c : Char) : Str :=
  if inFragment c then ['%', hexDigit (c.toNat / 16), hexDigit (c.toNat % 16)] else [c]

/-- Model of `utf8_percent_encode(s, &FRAGMENT)` for ASCII `s`. -/
def percentEncode (s : Str) : Str := (s.map encodeChar).flatten

/-- `DataType` from `src/network/utils.rs`. -/
inductive DataType
  | Json
  | ProbablyJson
  | Urlencoded
  | Headers
  deriving DecidableEq

/-- `InjectionPlace` from `src/network/utils.rs`. -/
inductive InjectionPlace
  | Path
  | Body
  | Headers
  | HeaderValue
  deriving DecidableEq

/-- The literal marker `%s`. -/
def sPat : Str := ['%', 's']

/-- The template key placeholder `%k`. -/
def kPat : Str := ['%', 'k']

/-- The template value placeholder `%v`. -/
def vPat : Str := ['%', 'v']

/-- The `\x7b\x7brandom\x7d\x7d` placeholder (double-braced "random"). -/
def rndPat : Str := "\x7b\x7brandom\x7d\x7d".toList

/-- `HEADERS_TEMPLATE` constant of `request.rs`. -/
def HEADERS_TEMPLATE : Str := "%k\x00@%=%@\x00%v".toList

/-- `HEADERS_MIDDLE` constant of `request.rs`. -/
def HEADERS_MIDDLE : Str := "\x00@%=%@\x00".toList

/-- `HEADERS_JOINER` constant of `request.rs`. -/
def HEADERS_JOINER : Str := "\x01@%&%@\x01".toList

/-- `RequestDefaults` (the fields the verified code paths read; the
transport client, scheme/host/port and the reflection counters are
external to the claims and omitted). -/
structure RequestDefaults where
  method : Str
  custom_headers : List (Str × Str)
  delay : Nat
  template : Str
  joiner : Str
  encode : Bool
  is_json : Bool
  body : Str
  parameters : List (Str × Str)
  injection_place : InjectionPlace
  path : Str
  deriving DecidableEq

/-- `Request` (the `defaults` reference is inlined as a value). -/
structure Request where
  defaults : RequestDefaults
  parameters : List Str
  prepared_parameters : List (Str × Str)
  non_random_parameters : List (Str × Str)
  headers : List (Str × Str)
  body : Str
  path : Str
  prepared : Bool
  deriving DecidableEq

/-- `Request::new`. -/
def Request.new (l : RequestDefaults) (parameters : List Str) : Request :=
  { defaults := l,
    parameters,
    prepared_parameters := [],
    non_random_parameters := [],
    headers := [],
    body := l.body,
    path := l.path,
    prepared := false }

/-- `Headers::contains_key` for `Vec<(String, String)>` from
`src/network/utils.rs`: exact, case-sensitive comparison of names. -/
def contains_key (hs : List (Str × Str)) (key : Str) : Bool :=
  hs.any (fun kv => kv.1 == key)

/-- decimal digit class `\d`. -/
def isDigitCh (c : Char) : Bool := decide (48 ≤ c.toNat ∧ c.toNat ≤ 57)

/-- Executable model of
`Regex::new(r"^([1-9]\d*|null|false|true)$").is_match(v)` from
`Request::make_query`. -/
def reJsonBare (v : Str) : Bool :=
  (match v with
   | [] => false
   | c :: rest => decide (49 ≤ c.toNat ∧ c.toNat ≤ 57) && rest.all isDigitCh)
  || v == "null".toList || v == "false".toList || v == "true".toList

/-- The per-pair closure of `Request::make_query`: substitute `%k` and
`%v` into the template, with the JSON bare-word quoting rule when
`is_json` is set. -/
def renderParam (template : Str) (is_json : Bool) (kv : Str × Str) : Str :=
  if is_json then
    if reJsonBare kv.2 then
      replaceSeq vPat kv.2 (replaceSeq kPat kv.1 template)
    else
      replaceSeq vPat ('"' :: kv.2 ++ ['"']) (replaceSeq kPat kv.1 template)
  else
    replaceSeq vPat kv.2 (replaceSeq kPat kv.1 template)

/-- Body of `Request::make_query`, abstracted over the chained pair
list (`prepared_parameters` followed by the defaults-level
`parameters`). -/
def makeQueryParams (template joiner : Str) (is_json encode : Bool)
    (pairs : List (Str × Str)) : Str :=
  let q := joinSeq joiner (pairs.map (renderParam template is_json))
  if encode then percentEncode q else q

/-- `Request::make_query`. -/
def Request.make_query (r : Request) : Str :=
  makeQueryParams r.defaults.template r.defaults.joiner r.defaults.is_json r.defaults.encode
    (r.prepared_parameters ++ r.defaults.parameters)

/-- The token split of `Request::prepare`: `x.split('=')` followed by
`next().unwrap()` and `next().unwrap_or("")`, i.e. the first two
`'='`-separated segments (the tail after a second `'='` is dropped). -/
def splitParam (x : Str) : Str × Str :=
  match splitSeq ['='] x with
  | k :: v :: _ => (k, v)
  | [k] => (k, [])
  | [] => ([], [])

/-- One `random_line` draw per list element, in order (used for the
bare parameter tokens). -/
def drawValues (g : Nat → Str) : Nat → List Str → List (Str × Str)
  | _, [] => []
  | i, x :: t => (x, g i) :: drawValues g (i + 1) t

/-- One `random_line` draw per custom header, in order, expanding the
`rndPat` placeholder in its value. -/
def drawHeaderValues (g : Nat → Str) : Nat → List (Str × Str) → List (Str × Str)
  | _, [] => []
  | i, kv :: t => (kv.1, replaceSeq rndPat (g i) kv.2) :: drawHeaderValues g (i + 1) t

/-- `entry.split(HEADERS_MIDDLE)` with `next().unwrap()` twice; the
second `unwrap` panics (`none`) when the middle separator is absent. -/
def splitEntry (e : Str) : Option (Str × Str) :=
  match splitSeq HEADERS_MIDDLE e with
  | a :: b :: _ => some (a, b)
  | _ => none

/-- Collect `splitEntry` over all entries; any panic aborts. -/
def splitEntries : List Str → Option (List (Str × Str))
  | [] => some []
  | e :: t =>
    match splitEntry e, splitEntries t with
    | some p, some ps => some (p :: ps)
    | _, _ => none

/-- The `InjectionPlace::Headers` arm of `Request::prepare`: split the
rendered query on the outer joiner, drop empty chunks, split each entry
on `HEADERS_MIDDLE` into a `(name, value)` pair. -/
def headersFromQuery (joiner q : Str) : Option (List (Str × Str)) :=
  splitEntries ((splitSeq joiner q).filter (fun x => !x.isEmpty))

/-- `"Content-Type"`. -/
def ctKey : Str := "Content-Type".toList

/-- `"application/json"`. -/
def ctJson : Str := "application/json".toList

/-- `"application/x-www-form-urlencoded"`. -/
def ctUrlencoded : Str := "application/x-www-form-urlencoded".toList

/-- First half of `Request::prepare` (source lines 192-231): split the
tokens, build `non_random_parameters` and `prepared_parameters`, copy
the custom headers (except under `HeaderValue` injection) and expand
the random placeholder in path and body.  Returns the updated request
and the next unused draw index. -/
def prepareStage1 (g : Nat → Str) (i0 : Nat) (r : Request) : Request × Nat :=
  let nonRandom := (r.parameters.filter (fun x => containsSeq ['='] x)).map splitParam
  let bare := r.parameters.filter (fun x => !x.isEmpty && !containsSeq ['='] x)
  let preparedP := r.prepared_parameters ++ nonRandom ++ drawValues g i0 bare
  let i1 := i0 + bare.length
  let hs :=
    if r.defaults.injection_place ≠ InjectionPlace.HeaderValue then
      r.headers ++ drawHeaderValues g i1 r.defaults.custom_headers
    else r.headers
  let i2 :=
    if r.defaults.injection_place ≠ InjectionPlace.HeaderValue then
      i1 + r.defaults.custom_headers.length
    else i1
  let path1 := replaceSeq rndPat (g i2) r.path
  let body1 := replaceSeq rndPat (g (i2 + 1)) r.body
  ({ r with
     prepared := true,
     non_random_parameters := nonRandom,
     prepared_parameters := preparedP,
     headers := hs,
     path := path1,
     body := body1 }, i2 + 2)

/-- The Content-Type inference shared by the `HeaderValue` and
`Headers` arms of `Request::prepare`. -/
def inferContentType (r1 : Request) : Request :=
  if !contains_key r1.defaults.custom_headers ctKey
      && !(r1.defaults.method == "GET".toList) && !(r1.defaults.method == "HEAD".toList)
      && !r1.body.isEmpty then
    { r1 with headers := r1.headers ++
        [(ctKey, if leadsWith ['\x7b'] r1.body then ctJson else ctUrlencoded)] }
  else r1

/-- Second half of `Request::prepare` (source lines 233-292): the
branch on the injection place. -/
def prepareInject (g : Nat → Str) (st : Request × Nat) : Option (Request × Nat) :=
  let r1 := st.1
  let i3 := st.2
  match r1.defaults.injection_place with
  | InjectionPlace.Path =>
    some ({ r1 with path := replaceSeq sPat r1.make_query r1.path }, i3)
  | InjectionPlace.Body =>
    let r2 := { r1 with body := replaceSeq sPat r1.make_query r1.body }
    if contains_key r1.defaults.custom_headers ctKey then some (r2, i3)
    else if r1.defaults.is_json then
      some ({ r2 with headers := r2.headers ++ [(ctKey, ctJson)] }, i3)
    else
      some ({ r2 with headers := r2.headers ++ [(ctKey, ctUrlencoded)] }, i3)
  | InjectionPlace.HeaderValue =>
    let r2 := inferContentType r1
    let q := r2.make_query
    let newHs := (drawHeaderValues g i3 r1.defaults.custom_headers).map
        (fun kv => (kv.1, replaceSeq sPat q kv.2))
    some ({ r2 with headers := r2.headers ++ newHs }, i3 + r1.defaults.custom_headers.length)
  | InjectionPlace.Headers =>
    let r2 := inferContentType r1
    match headersFromQuery r1.defaults.joiner r2.make_query with
    | none => none
    | some hs2 => some ({ r2 with headers := r2.headers ++ hs2 }, i3)

/-- `Request::prepare`.  `g` is the `random_line` oracle, `i0` the next
draw index; the returned counter is the next unused index.  `none`
models the panic in the `Headers` arm (missing middle separator). -/
def prepare (g : Nat → Str) (i0 : Nat) (r : Request) : Option (Request × Nat) :=
  if r.prepared then some (r, i0)
  else prepareInject g (prepareStage1 g i0 r)

/-- Observable events of a dispatch: cooperative sleeps (milliseconds)
and the wire request handed to the transport. -/
inductive Ev where
  | sleepMs : Nat → Ev
  | exec : Str → List (Str × Str) → Str → Ev
  deriving DecidableEq

def isExec : Ev → Bool
  | Ev.exec _ _ _ => true
  | _ => false

def execCount (evs : List Ev) : Nat := (evs.filter isExec).length

/-- One `Request::request` call: prepare the (cloned) request, sleep
the configured delay, hand path/headers/body to the transport. -/
def requestTrace (g : Nat → Str) (i : Nat) (r : Request) :
    Option (List Ev × Request × Nat) :=
  match prepare g i r with
  | none => none
  | some (r1, i1) =>
    some ([Ev.sleepMs r.defaults.delay, Ev.exec r1.path r1.headers r1.body], r1, i1)

/-- `Request::send_by`: first attempt on a clone of `self`; on a
transport failure (`outcome1 = none`) sleep 10 seconds and retry once
on a fresh clone of `self` (the rng counter continues, so an
unprepared request re-prepares with fresh draws); a second failure
propagates.  `outcomeN = some code` is a completed HTTP response with
that status code (the status is never inspected). -/
def send_by (g : Nat → Str) (i : Nat) (r : Request) (outcome1 outcome2 : Option Nat) :
    List Ev × Option (Request × Nat) :=
  match requestTrace g i r with
  | none => ([], none)
  | some (ev1, r1, i1) =>
    match outcome1 with
    | some code => (ev1, some (r1, code))
    | none =>
      match requestTrace g i1 r with
      | none => (ev1 ++ [Ev.sleepMs 10000], none)
      | some (ev2, r2, _) =>
        match outcome2 with
        | some code => (ev1 ++ Ev.sleepMs 10000 :: ev2, some (r2, code))
        | none => (ev1 ++ Ev.sleepMs 10000 :: ev2, none)

/-- The injection-place computation of `RequestDefaults::new`
(lines 473-494): the `headers_discovery` override, the method/invert
partition, and the `HeaderValue` override when a custom header value
contains `%s`. -/
def injectionPlaceOf (method : Str) (invert headers_discovery : Bool)
    (custom_headers : List (Str × Str)) : InjectionPlace :=
  let base :=
    if headers_discovery then InjectionPlace.Headers
    else if ((method == "POST".toList || method == "PUT".toList || method == "PATCH".toList
          || method == "DELETE".toList) && !invert)
        || (!(method == "POST".toList) && !(method == "PUT".toList)
          && !(method == "PATCH".toList) && !(method == "DELETE".toList) && invert) then
      InjectionPlace.Body
    else InjectionPlace.Path
  if headers_discovery && custom_headers.any (fun kv => containsSeq sPat kv.2) then
    InjectionPlace.HeaderValue
  else base

/-- The `ProbablyJson` resolution of `RequestDefaults::new`
(lines 496-510); `none` is the `unreachable!()` arm. -/
def resolveDataType (dt : Option DataType) (place : InjectionPlace) :
    Option (Option DataType) :=
  if dt ≠ some DataType.ProbablyJson then some dt
  else if place = InjectionPlace.Body ∧ dt = some DataType.ProbablyJson then
    some (some DataType.Json)
  else if place = InjectionPlace.Path then some (some DataType.Urlencoded)
  else none

/-- `RequestDefaults::guess_data_format`; `none` is the
`unreachable!()` arm (declared data type `ProbablyJson` reaching it). -/
def guess_data_format (body : Str) (place : InjectionPlace) (dt : Option DataType) :
    Option (Str × Str × Bool × Option DataType) :=
  if dt.isSome ∧ dt ≠ some DataType.Headers then
    match dt with
    | some DataType.Json => some ("\"%k\":%v".toList, [','], true, some DataType.Json)
    | some DataType.Urlencoded => some ("%k=%v".toList, ['&'], false, some DataType.Urlencoded)
    | _ => none
  else
    match place with
    | InjectionPlace.Body =>
      if leadsWith ['\x7b'] body then
        some ("\"%k\":%v".toList, [','], true, some DataType.Json)
      else
        some ("%k=%v".toList, ['&'], false, some DataType.Urlencoded)
    | InjectionPlace.HeaderValue => some ("%k=%v".toList, [';'], false, none)
    | InjectionPlace.Path => some ("%k=%v".toList, ['&'], false, some DataType.Urlencoded)
    | InjectionPlace.Headers => some (HEADERS_TEMPLATE, HEADERS_JOINER, false, none)

/-- `RequestDefaults::fix_path_and_body`; `none` is the
`unreachable!()` arm (data type neither `Urlencoded` nor `Json`). -/
def fix_path_and_body (path body joiner : Str) (place : InjectionPlace) (dt : DataType) :
    Option (Str × Str) :=
  match place with
  | InjectionPlace.Body =>
    if containsSeq sPat body then some (path, body)
    else if body.isEmpty then
      match dt with
      | DataType.Urlencoded => some (path, sPat)
      | DataType.Json => some (path, "\x7b%s\x7d".toList)
      | _ => none
    else
      match dt with
      | DataType.Urlencoded => some (path, body ++ joiner ++ sPat)
      | DataType.Json =>
        let b := body.dropLast
        if b ≠ ['\x7b'] then some (path, b ++ ",%s\x7d".toList)
        else some (path, b ++ "%s\x7d".toList)
      | _ => none
  | InjectionPlace.Path =>
    if containsSeq sPat path then some (path, body)
    else if containsSeq ['?'] path then some (path ++ joiner ++ sPat, body)
    else if joiner = ['&'] then some (path ++ "?%s".toList, body)
    else some (path ++ sPat, body)
  | _ => some (path, body)

/-- The joiner unescaping of `RequestDefaults::new`:
`.replace("\\r", "\r").replace("\\n", "\n")`. -/
def unescapeJoiner (j : Str) : Str :=
  replaceSeq "\\n".toList "\n".toList (replaceSeq "\\r".toList "\r".toList j)

/-- `RequestDefaults::new`, from the injection-place computation to the
assembled defaults.  `pathWithQuery` stands for
`url[url::Position::BeforePath..]` (URL parsing itself is external);
host/port/scheme extraction is omitted.  `none` models a panic. -/
def RequestDefaults.new (method : Str) (pathWithQuery : Str)
    (custom_headers : List (Str × Str)) (delay : Nat)
    (templateArg joinerArg : Option Str) (encode : Bool)
    (data_type : Option DataType) (invert headers_discovery : Bool) (body : Str) :
    Option RequestDefaults :=
  let place := injectionPlaceOf method invert headers_discovery custom_headers
  let dt0 := if headers_discovery then some DataType.Headers else data_type
  match resolveDataType dt0 place with
  | none => none
  | some dt1 =>
    match guess_data_format body place dt1 with
    | none => none
    | some (gt, gj, isj, dt2) =>
      let template := templateArg.getD gt
      let joiner := unescapeJoiner (joinerArg.getD gj)
      let pb :=
        match dt2 with
        | some d => fix_path_and_body pathWithQuery body joiner place d
        | none => some (pathWithQuery, body)
      match pb with
      | none => none
      | some (p, b) =>
        some { method,
               custom_headers,
               delay,
               template,
               joiner,
               encode,
               is_json := isj,
               body := b,
               parameters := [],
               injection_place := place,
               path := p }

/-- Modelled from the spec: the injection-place rule as the spec words
it — `headers_discovery` forces `Headers` (overridden to `HeaderValue`
when a custom header value carries `%s`); otherwise state-changing
verbs inject into `Body` unless inverted, the rest into `Path` unless
inverted. -/
def specInjectionPlace (method : Str) (invert headers_discovery : Bool)
    (custom_headers : List (Str × Str)) : InjectionPlace :=
  if headers_discovery then
    if custom_headers.any (fun kv => containsSeq sPat kv.2) then InjectionPlace.HeaderValue
    else InjectionPlace.Headers
  else
    let stateChanging :=
      method = "POST".toList ∨ method = "PUT".toList ∨ method = "PATCH".toList ∨
        method = "DELETE".toList
    if (stateChanging ∧ invert = false) ∨ (¬stateChanging ∧ invert = true) then
      InjectionPlace.Body
    else InjectionPlace.Path

/-- Regular expressions over `Char`, enough for the source's JSON
bare-word pattern. -/
inductive Rx where
  | chr : Char → Rx
  | cls : (Char → Bool) → Rx
  | cat : Rx → Rx → Rx
  | alt : Rx → Rx → Rx
  | star : Rx → Rx

/-- Full-match semantics of `Rx` (the source pattern is anchored with
`^...$`, so full match is what `is_match` tests). -/
inductive RxMatch : Rx → Str → Prop where
  | chr (c : Char) : RxMatch (Rx.chr c) [c]
  | cls (f : Char → Bool) (c : Char) : f c = true → RxMatch (Rx.cls f) [c]
  | cat (a b : Rx) (s t : Str) : RxMatch a s → RxMatch b t → RxMatch (Rx.cat a b) (s ++ t)
  | altL (a b : Rx) (s : Str) : RxMatch a s → RxMatch (Rx.alt a b) s
  | altR (a b : Rx) (s : Str) : RxMatch b s → RxMatch (Rx.alt a b) s
  | starNil (a : Rx) : RxMatch (Rx.star a) []
  | starCons (a : Rx) (s t : Str) :
      RxMatch a s → RxMatch (Rx.star a) t → RxMatch (Rx.star a) (s ++ t)

/-- Literal word as a regex (nonempty words only). -/
def strRx : Str → Rx
  | [] => Rx.star (Rx.cls fun _ => false)
  | [c] => Rx.chr c
  | c :: d :: t => Rx.cat (Rx.chr c) (strRx (d :: t))

/-- The pattern `[1-9]\d*|null|false|true` of `Request::make_query`
(anchoring is built into the full-match semantics). -/
def jsonBareRx : Rx :=
  Rx.alt
    (Rx.cat (Rx.cls fun c => decide (49 ≤ c.toNat ∧ c.toNat ≤ 57)) (Rx.star (Rx.cls isDigitCh)))
    (Rx.alt (strRx "null".toList) (Rx.alt (strRx "false".toList) (strRx "true".toList)))

/-- Concrete `Path`-injection defaults used by witnesses and
counterexamples: `GET` on a path whose query already carries the
marker, default urlencoded template and joiner, no custom headers. -/
def pathDefaults : RequestDefaults :=
  { method := "GET".toList,
    custom_headers := [],
    delay := 0,
    template := "%k=%v".toList,
    joiner := ['&'],
    encode := false,
    is_json := false,
    body := [],
    parameters := [],
    injection_place := InjectionPlace.Path,
    path := "/a?%s".toList }

/-- A deterministic `random_line` oracle whose draws differ from index
to index (`n + 1` copies of `a`). -/
def wRng : Nat → Str := fun n => List.replicate (n + 1) 'a'

/-- A request already marked prepared (as a caller that called
`prepare` before sending would hold). -/
def preparedReq : Request :=
  { Request.new pathDefaults ["x".toList] with prepared := true }

/-- The Scenario E request: parameters `["admin=true", "x", ""]`. -/
def scenarioEReq : Request :=
  Request.new pathDefaults ["admin=true".toList, "x".toList, []]

/-! ### Toolkit lemmas: `leadsWith` and `findSeq` -/

theorem leadsWith_nil_left (s : Str) : leadsWith [] s = true := by
  cases s <;> rfl

theorem leadsWith_cons_nil (a : Char) (ta : Str) : leadsWith (a :: ta) [] = false := rfl

theorem leadsWith_cons_cons (a b : Char) (ta tb : Str) :
    leadsWith (a :: ta) (b :: tb) = if a = b then leadsWith ta tb else false := rfl

theorem leadsWith_append {pat s : Str} (t : Str) (h : leadsWith pat s = true) :
    leadsWith pat (s ++ t) = true := by
  induction pat generalizing s with
  | nil => exact leadsWith_nil_left _
  | cons a ta ih =>
    cases s with
    | nil => simp [leadsWith_cons_nil] at h
    | cons b tb =>
      rw [List.cons_append, leadsWith_cons_cons]
      rw [leadsWith_cons_cons] at h
      by_cases hab : a = b
      · rw [if_pos hab] at h ⊢
        exact ih h
      · rw [if_neg hab] at h
        simp at h

theorem leadsWith_refl (s : Str) : leadsWith s s = true := by
  induction s with
  | nil => rfl
  | cons a t ih => rw [leadsWith_cons_cons, if_pos rfl]; exact ih

theorem leadsWith_self_append (pat x : Str) : leadsWith pat (pat ++ x) = true :=
  leadsWith_append x (leadsWith_refl pat)

theorem leadsWith_head_eq {a b : Char} {ta tb : Str}
    (h : leadsWith (a :: ta) (b :: tb) = true) : a = b := by
  rw [leadsWith_cons_cons] at h
  by_cases hab : a = b
  · exact hab
  · rw [if_neg hab] at h
    cases h

theorem leadsWith_pair_iff (a b c d : Char) (rest : Str) :
    leadsWith [a, b] (c :: d :: rest) = true ↔ a = c ∧ b = d := by
  rw [leadsWith_cons_cons]
  by_cases h1 : a = c
  · rw [if_pos h1, leadsWith_cons_cons]
    by_cases h2 : b = d
    · rw [if_pos h2]
      simp [leadsWith_nil_left, h1, h2]
    · rw [if_neg h2]
      simp [h1, h2]
  · rw [if_neg h1]
    simp [h1]

theorem leadsWith_pair_single (a b c : Char) : leadsWith [a, b] [c] = false := by
  rw [leadsWith_cons_cons]
  by_cases h : a = c
  · rw [if_pos h]
    rfl
  · rw [if_neg h]

theorem leadsWith_pair_head_ne (a b c : Char) (rest : Str) (h : a ≠ c) :
    leadsWith [a, b] (c :: rest) = false := by
  rw [leadsWith_cons_cons, if_neg h]

theorem findSeq_nil (a : Char) (ta : Str) : findSeq (a :: ta) [] = none := rfl

theorem findSeq_cons (pat : Str) (c : Char) (rest : Str) :
    findSeq pat (c :: rest) =
      if leadsWith pat (c :: rest) then some 0 else (findSeq pat rest).map (· + 1) := rfl

theorem findSeq_some_ne_nil {a : Char} {ta s : Str} {i : Nat}
    (h : findSeq (a :: ta) s = some i) : s ≠ [] := by
  intro hs
  subst hs
  rw [findSeq_nil] at h
  cases h

theorem findSeq_none_of_head_notMem {c : Char} (pt : Str) {s : Str} (h : c ∉ s) :
    findSeq (c :: pt) s = none := by
  induction s with
  | nil => rfl
  | cons b tb ih =>
    rw [findSeq_cons]
    have hcb : ¬ leadsWith (c :: pt) (b :: tb) = true := by
      intro hl
      exact h (by rw [leadsWith_head_eq hl]; exact List.mem_cons_self _ _)
    rw [if_neg hcb, ih (fun hm => h (List.mem_cons_of_mem _ hm))]
    rfl

theorem findSeq_append_head_notMem {c : Char} (pt : Str) {a : Str} (b : Str) (h : c ∉ a) :
    findSeq (c :: pt) (a ++ b) = (findSeq (c :: pt) b).map (· + a.length) := by
  induction a with
  | nil =>
    cases hf : findSeq (c :: pt) b <;> simp [hf]
  | cons d td ih =>
    rw [List.cons_append, findSeq_cons]
    have hne : ¬ leadsWith (c :: pt) (d :: (td ++ b)) = true := by
      intro hl
      exact h (by rw [leadsWith_head_eq hl]; exact List.mem_cons_self _ _)
    rw [if_neg hne, ih (fun hm => h (List.mem_cons_of_mem _ hm))]
    cases hf : findSeq (c :: pt) b <;> simp [hf, List.length_cons] <;> omega

theorem findSeq_self (c : Char) (pt x : Str) : findSeq (c :: pt) ((c :: pt) ++ x) = some 0 := by
  rw [List.cons_append, findSeq_cons, if_pos]
  exact leadsWith_self_append (c :: pt) x

theorem findSeq_singleton_none_iff (c : Char) (s : Str) :
    findSeq [c] s = none ↔ c ∉ s := by
  constructor
  · intro h hm
    induction s with
    | nil => cases hm
    | cons b tb ih =>
      rw [findSeq_cons] at h
      by_cases hl : leadsWith [c] (b :: tb) = true
      · rw [if_pos hl] at h
        cases h
      · rw [if_neg hl] at h
        rcases List.mem_cons.mp hm with hb | hb
        · exact hl (by rw [leadsWith_cons_cons, if_pos hb]; exact leadsWith_nil_left _)
        · exact ih (Option.map_eq_none'.mp h) hb
  · exact findSeq_none_of_head_notMem []

/-! ### Fuel irrelevance and unfolding equations for `splitSeq`/`replaceSeq` -/

theorem splitSeqF_congr (a : Char) (ta : Str) :
    ∀ f₁ f₂ : Nat, ∀ s : Str, s.length ≤ f₁ → s.length ≤ f₂ →
      splitSeqF (a :: ta) f₁ s = splitSeqF (a :: ta) f₂ s := by
  intro f₁
  induction f₁ with
  | zero =>
    intro f₂ s h1 h2
    have hs : s = [] := List.eq_nil_of_length_eq_zero (Nat.le_zero.mp h1)
    subst hs
    cases f₂ with
    | zero => rfl
    | succ f => simp [splitSeqF, findSeq_nil]
  | succ f₁ ih =>
    intro f₂ s h1 h2
    cases f₂ with
    | zero =>
      have hs : s = [] := List.eq_nil_of_length_eq_zero (Nat.le_zero.mp h2)
      subst hs
      simp [splitSeqF, findSeq_nil]
    | succ f₂ =>
      rw [splitSeqF, splitSeqF]
      cases hfind : findSeq (a :: ta) s with
      | none => rfl
      | some i =>
        have hne : s ≠ [] := findSeq_some_ne_nil hfind
        have hlen : 0 < s.length := List.length_pos.mpr hne
        have hd1 : (s.drop (i + (a :: ta).length)).length ≤ f₁ := by
          rw [List.length_drop]
          simp only [List.length_cons]
          omega
        have hd2 : (s.drop (i + (a :: ta).length)).length ≤ f₂ := by
          rw [List.length_drop]
          simp only [List.length_cons]
          omega
        exact congrArg (s.take i :: ·) (ih f₂ _ hd1 hd2)

theorem splitSeq_eq (a : Char) (ta : Str) (s : Str) :
    splitSeq (a :: ta) s =
      match findSeq (a :: ta) s with
      | none => [s]
      | some i => s.take i :: splitSeq (a :: ta) (s.drop (i + (a :: ta).length)) := by
  unfold splitSeq
  cases s with
  | nil => simp [splitSeqF, findSeq_nil]
  | cons c t =>
    show splitSeqF (a :: ta) (t.length + 1) (c :: t) = _
    rw [splitSeqF]
    cases hfind : findSeq (a :: ta) (c :: t) with
    | none => rfl
    | some i =>
      have hd1 : ((c :: t).drop (i + (a :: ta).length)).length ≤ t.length := by
        rw [List.length_drop]
        simp only [List.length_cons]
        omega
      exact congrArg ((c :: t).take i :: ·)
        (splitSeqF_congr a ta t.length _ _ hd1 (Nat.le_refl _))

theorem replaceSeqF_congr (a : Char) (ta rep : Str) :
    ∀ f₁ f₂ : Nat, ∀ s : Str, s.length ≤ f₁ → s.length ≤ f₂ →
      replaceSeqF (a :: ta) rep f₁ s = replaceSeqF (a :: ta) rep f₂ s := by
  intro f₁
  induction f₁ with
  | zero =>
    intro f₂ s h1 h2
    have hs : s = [] := List.eq_nil_of_length_eq_zero (Nat.le_zero.mp h1)
    subst hs
    cases f₂ with
    | zero => rfl
    | succ f => simp [replaceSeqF, findSeq_nil]
  | succ f₁ ih =>
    intro f₂ s h1 h2
    cases f₂ with
    | zero =>
      have hs : s = [] := List.eq_nil_of_length_eq_zero (Nat.le_zero.mp h2)
      subst hs
      simp [replaceSeqF, findSeq_nil]
    | succ f₂ =>
      rw [replaceSeqF, replaceSeqF]
      cases hfind : findSeq (a :: ta) s with
      | none => rfl
      | some i =>
        have hne : s ≠ [] := findSeq_some_ne_nil hfind
        have hlen : 0 < s.length := List.length_pos.mpr hne
        have hd1 : (s.drop (i + (a :: ta).length)).length ≤ f₁ := by
          rw [List.length_drop]
          simp only [List.length_cons]
          omega
        have hd2 : (s.drop (i + (a :: ta).length)).length ≤ f₂ := by
          rw [List.length_drop]
          simp only [List.length_cons]
          omega
        exact congrArg (fun w => s.take i ++ rep ++ w) (ih f₂ _ hd1 hd2)

theorem replaceSeq_eq (a : Char) (ta rep : Str) (s : Str) :
    replaceSeq (a :: ta) rep s =
      match findSeq (a :: ta) s with
      | none => s
      | some i => s.take i ++ rep ++ replaceSeq (a :: ta) rep (s.drop (i + (a :: ta).length)) := by
  unfold replaceSeq
  cases s with
  | nil => simp [replaceSeqF, findSeq_nil]
  | cons c t =>
    show replaceSeqF (a :: ta) rep (t.length + 1) (c :: t) = _
    rw [replaceSeqF]
    cases hfind : findSeq (a :: ta) (c :: t) with
    | none => rfl
    | some i =>
      have hd1 : ((c :: t).drop (i + (a :: ta).length)).length ≤ t.length := by
        rw [List.length_drop]
        simp only [List.length_cons]
        omega
      exact congrArg (fun w => (c :: t).take i ++ rep ++ w)
        (replaceSeqF_congr a ta rep t.length _ _ hd1 (Nat.le_refl _))

theorem replaceSeq_none {a : Char} {ta rep s : Str} (h : findSeq (a :: ta) s = none) :
    replaceSeq (a :: ta) rep s = s := by
  rw [replaceSeq_eq, h]

/-! ### Toolkit lemmas: `countSeq` and the `%s` marker -/

theorem countSeq_nil (pat : Str) : countSeq pat [] = 0 := rfl

theorem countSeq_cons (pat : Str) (c : Char) (rest : Str) :
    countSeq pat (c :: rest) =
      (if leadsWith pat (c :: rest) then 1 else 0) + countSeq pat rest := rfl

theorem countSeq_zero_iff_none (a : Char) (ta : Str) (s : Str) :
    countSeq (a :: ta) s = 0 ↔ findSeq (a :: ta) s = none := by
  induction s with
  | nil => simp [countSeq_nil, findSeq_nil]
  | cons c t ih =>
    rw [countSeq_cons, findSeq_cons]
    by_cases hl : leadsWith (a :: ta) (c :: t) = true
    · rw [if_pos hl, if_pos hl]
      simp
    · rw [if_neg hl, if_neg hl]
      simp [ih, Option.map_eq_none']

theorem countSeq_le_append (pat x y : Str) : countSeq pat x ≤ countSeq pat (x ++ y) := by
  induction x with
  | nil => simp [countSeq_nil]
  | cons c t ih =>
    rw [List.cons_append, countSeq_cons, countSeq_cons]
    have hle : (if leadsWith pat (c :: t) then 1 else 0) ≤
        (if leadsWith pat (c :: (t ++ y)) then 1 else 0) := by
      by_cases hl : leadsWith pat (c :: t) = true
      · rw [if_pos hl, if_pos (by rw [← List.cons_append]; exact leadsWith_append y hl)]
      · rw [if_neg hl]
        exact Nat.zero_le _
    exact Nat.add_le_add hle ih

theorem countSeq_prefix_zero {pat x y : Str} (h : countSeq pat (x ++ y) = 0) :
    countSeq pat x = 0 :=
  Nat.le_zero.mp (h ▸ countSeq_le_append pat x y)

theorem countSeq_dropLast_zero {pat s : Str} (h : countSeq pat s = 0) :
    countSeq pat s.dropLast = 0 := by
  rcases eq_or_ne s [] with rfl | hs
  · exact h
  · exact countSeq_prefix_zero (y := [s.getLast hs])
      (by rw [List.dropLast_append_getLast hs]; exact h)

theorem countSeq_sPat_marker (x z : Str) (hx : countSeq sPat x = 0)
    (hz : countSeq sPat z = 0) : countSeq sPat (x ++ sPat ++ z) = 1 := by
  induction x with
  | nil =>
    rw [List.nil_append]
    rw [show sPat ++ z = '%' :: 's' :: z from rfl]
    rw [countSeq_cons, countSeq_cons]
    have h1 : leadsWith sPat ('%' :: 's' :: z) = true := leadsWith_self_append sPat z
    have h2 : leadsWith sPat ('s' :: z) = false := leadsWith_pair_head_ne '%' 's' 's' z (by decide)
    rw [h1, h2, hz]
    simp
  | cons c t ih =>
    rw [countSeq_cons] at hx
    have ht : countSeq sPat t = 0 := by omega
    rw [List.cons_append, List.cons_append, countSeq_cons]
    have hite : (if leadsWith sPat (c :: (t ++ sPat ++ z)) then 1 else 0) = 0 := by
      by_cases hl : leadsWith sPat (c :: (t ++ sPat ++ z)) = true
      · exfalso
        have hc : ('%' : Char) = c := leadsWith_head_eq hl
        cases t with
        | nil =>
          rw [show (([] : Str) ++ sPat ++ z) = '%' :: 's' :: z from rfl] at hl
          have := (leadsWith_pair_iff '%' 's' c '%' ('s' :: z)).mp hl
          exact absurd this.2 (by decide)
        | cons d u =>
          rw [show ((d :: u) ++ sPat ++ z) = d :: (u ++ sPat ++ z) from by simp] at hl
          have hpair := (leadsWith_pair_iff '%' 's' c d _).mp hl
          have : leadsWith sPat (c :: d :: u) = true := by
            rw [show (sPat : Str) = ['%', 's'] from rfl]
            exact (leadsWith_pair_iff '%' 's' c d u).mpr ⟨hpair.1, hpair.2⟩
          rw [if_pos this] at hx
          omega
      · rw [if_neg hl]
    rw [hite, ih ht]

theorem countSeq_sPat_snoc (x : Str) (c : Char) (hx : countSeq sPat x = 0) (hc : c ≠ 's') :
    countSeq sPat (x ++ [c]) = 0 := by
  induction x with
  | nil =>
    rw [List.nil_append, countSeq_cons, countSeq_nil]
    have h1 : leadsWith sPat [c] = false := leadsWith_pair_single '%' 's' c
    rw [h1]
    simp
  | cons d t ih =>
    rw [countSeq_cons] at hx
    have ht : countSeq sPat t = 0 := by omega
    rw [List.cons_append, countSeq_cons]
    have hite : (if leadsWith sPat (d :: (t ++ [c])) then 1 else 0) = 0 := by
      by_cases hl : leadsWith sPat (d :: (t ++ [c])) = true
      · exfalso
        have hd : ('%' : Char) = d := leadsWith_head_eq hl
        cases t with
        | nil =>
          rw [show (([] : Str) ++ [c]) = [c] from rfl] at hl
          have := (leadsWith_pair_iff '%' 's' d c []).mp hl
          exact hc this.2.symm
        | cons e u =>
          rw [show ((e :: u) ++ [c]) = e :: (u ++ [c]) from rfl] at hl
          have hpair := (leadsWith_pair_iff '%' 's' d e _).mp hl
          have : leadsWith sPat (d :: e :: u) = true := by
            rw [show (sPat : Str) = ['%', 's'] from rfl]
            exact (leadsWith_pair_iff '%' 's' d e u).mpr ⟨hpair.1, hpair.2⟩
          rw [if_pos this] at hx
          omega
      · rw [if_neg hl]
    rw [hite, ih ht]

theorem containsSeq_eq_false_of_countSeq {a : Char} {ta s : Str}
    (h : countSeq (a :: ta) s = 0) : containsSeq (a :: ta) s = false := by
  unfold containsSeq
  rw [(countSeq_zero_iff_none a ta s).mp h]
  rfl

/-- C1 (amended): provided the pre-fixup path and body contain no `%s`
occurrence (also jointly with the joiner, so that no occurrence
straddles a junction), `fix_path_and_body` leaves exactly one of the
resulting path/body with exactly one `%s` marker when the injection
place is `Path` or `Body`, and leaves both untouched (no marker gained)
for `Headers`/`HeaderValue`.  The claim's unconditional form — "for
every input path/body pair, including ones that already contain `%s`" —
is refuted by `fix_path_and_body_double_marker_cex`. -/
theorem fix_path_and_body_marker_invariant (path body joiner : Str) (place : InjectionPlace)
    (dt : DataType) (hdt : dt = DataType.Urlencoded ∨ dt = DataType.Json)
    (hp : countSeq sPat (path ++ joiner) = 0)
    (hb : countSeq sPat (body ++ joiner) = 0) :
    ∃ p1 b1, fix_path_and_body path body joiner place dt = some (p1, b1) ∧
      (place = InjectionPlace.Path → countSeq sPat p1 = 1 ∧ countSeq sPat b1 = 0) ∧
      (place = InjectionPlace.Body → countSeq sPat p1 = 0 ∧ countSeq sPat b1 = 1) ∧
      ((place = InjectionPlace.Headers ∨ place = InjectionPlace.HeaderValue) →
        p1 = path ∧ b1 = body) := by
  have hpath0 : countSeq sPat path = 0 := countSeq_prefix_zero hp
  have hbody0 : countSeq sPat body = 0 := countSeq_prefix_zero hb
  have hcp : containsSeq sPat path = false := containsSeq_eq_false_of_countSeq hpath0
  have hcb : containsSeq sPat body = false := containsSeq_eq_false_of_countSeq hbody0
  cases place with
  | Path =>
    cases hq : containsSeq ['?'] path with
    | true =>
      refine ⟨path ++ joiner ++ sPat, body, ?_, ?_, by simp, by simp⟩
      · simp [fix_path_and_body, hcp, hq]
      · intro _
        refine ⟨?_, hbody0⟩
        have hm := countSeq_sPat_marker (path ++ joiner) [] hp (countSeq_nil sPat)
        simpa using hm
    | false =>
      by_cases hj : joiner = ['&']
      · refine ⟨path ++ "?%s".toList, body, ?_, ?_, by simp, by simp⟩
        · simp [fix_path_and_body, hcp, hq, hj]
        · intro _
          refine ⟨?_, hbody0⟩
          have hm := countSeq_sPat_marker (path ++ ['?']) []
            (countSeq_sPat_snoc path '?' hpath0 (by decide)) (countSeq_nil sPat)
          have he : "?%s".toList = ['?', '%', 's'] := by decide
          rw [he]
          simpa using hm
      · refine ⟨path ++ sPat, body, ?_, ?_, by simp, by simp⟩
        · simp [fix_path_and_body, hcp, hq, hj]
        · intro _
          refine ⟨?_, hbody0⟩
          have hm := countSeq_sPat_marker path [] hpath0 (countSeq_nil sPat)
          simpa using hm
  | Body =>
    cases body with
    | nil =>
      have h0 : containsSeq sPat ([] : Str) = false := by decide
      rcases hdt with rfl | rfl
      · refine ⟨path, sPat, ?_, by simp, ?_, by simp⟩
        · simp [fix_path_and_body, h0]
        · intro _
          exact ⟨hpath0, by decide⟩
      · refine ⟨path, "\x7b%s\x7d".toList, ?_, by simp, ?_, by simp⟩
        · simp [fix_path_and_body, h0]
        · intro _
          exact ⟨hpath0, by decide⟩
    | cons c t =>
      rcases hdt with rfl | rfl
      · refine ⟨path, (c :: t) ++ joiner ++ sPat, ?_, by simp, ?_, by simp⟩
        · simp [fix_path_and_body, hcb]
        · intro _
          refine ⟨hpath0, ?_⟩
          have hm := countSeq_sPat_marker ((c :: t) ++ joiner) [] hb (countSeq_nil sPat)
          simpa using hm
      · by_cases hbrace : (c :: t).dropLast = ['\x7b']
        · refine ⟨path, (c :: t).dropLast ++ "%s\x7d".toList, ?_, by simp, ?_, by simp⟩
          · simp [fix_path_and_body, hcb, hbrace]
          · intro _
            refine ⟨hpath0, ?_⟩
            rw [hbrace]
            decide
        · refine ⟨path, (c :: t).dropLast ++ ",%s\x7d".toList, ?_, by simp, ?_, by simp⟩
          · simp [fix_path_and_body, hcb, hbrace]
          · intro _
            refine ⟨hpath0, ?_⟩
            have hdl : countSeq sPat (c :: t).dropLast = 0 := countSeq_dropLast_zero hbody0
            have hm := countSeq_sPat_marker ((c :: t).dropLast ++ [',']) ['\x7d']
              (countSeq_sPat_snoc _ ',' hdl (by decide)) (by decide)
            have he : ",%s\x7d".toList = [',', '%', 's', '\x7d'] := by decide
            rw [he]
            simpa using hm
  | Headers =>
    exact ⟨path, body, by simp [fix_path_and_body], by simp, by simp, fun _ => ⟨rfl, rfl⟩⟩
  | HeaderValue =>
    exact ⟨path, body, by simp [fix_path_and_body], by simp, by simp, fun _ => ⟨rfl, rfl⟩⟩

/-- C1 counterexample: with `Body` injection, a body already containing
`%s%s` is returned unchanged by `fix_path_and_body`, so the resulting
body holds two `%s` occurrences, not exactly one. -/
theorem fix_path_and_body_double_marker_cex :
    fix_path_and_body [] "%s%s".toList ['&'] InjectionPlace.Body DataType.Urlencoded =
      some ([], "%s%s".toList) ∧
    countSeq sPat "%s%s".toList = 2 ∧ ¬ countSeq sPat "%s%s".toList = 1 := by
  refine ⟨by decide, by decide, by decide⟩

/-- C1 witness: the amended invariant applied at a concrete input. -/
theorem fix_path_and_body_marker_invariant_wit :
    fix_path_and_body "/a".toList [] ['&'] InjectionPlace.Body DataType.Urlencoded =
      some ("/a".toList, sPat) ∧ countSeq sPat sPat = 1 ∧ countSeq sPat "/a".toList = 0 := by
  obtain ⟨p1, b1, heq, hP, hB, hH⟩ :=
    fix_path_and_body_marker_invariant "/a".toList [] ['&'] InjectionPlace.Body
      DataType.Urlencoded (Or.inl rfl) (by decide) (by decide)
  have heval : fix_path_and_body "/a".toList [] ['&'] InjectionPlace.Body DataType.Urlencoded =
      some ("/a".toList, sPat) := by decide
  rw [heval] at heq
  have hpair := Option.some.inj heq
  rw [Prod.mk.injEq] at hpair
  obtain ⟨he1, he2⟩ := hpair
  subst he1
  subst he2
  exact ⟨heval, (hB rfl).2, (hB rfl).1⟩

/-- C3: the injection place computed by `RequestDefaults::new` agrees,
for every method string and every pair of flags, with the spec's rule:
`headers_discovery` forces `Headers`, overridden to `HeaderValue` when
some custom header value contains `%s`; otherwise `Body` exactly when
(method ∈ {POST, PUT, PATCH, DELETE} and not inverted) or (method
outside that set and inverted), and `Path` in all remaining cases. -/
theorem injection_place_classification (method : Str) (invert headers_discovery : Bool)
    (custom_headers : List (Str × Str)) :
    injectionPlaceOf method invert headers_discovery custom_headers =
      specInjectionPlace method invert headers_discovery custom_headers := by
  unfold injectionPlaceOf specInjectionPlace
  cases headers_discovery with
  | true =>
    cases hany : custom_headers.any (fun kv => containsSeq sPat kv.2) <;> simp [hany]
  | false =>
    by_cases h1 : method = ['P', 'O', 'S', 'T'] <;>
    by_cases h2 : method = ['P', 'U', 'T'] <;>
    by_cases h3 : method = ['P', 'A', 'T', 'C', 'H'] <;>
    by_cases h4 : method = ['D', 'E', 'L', 'E', 'T', 'E'] <;>
    cases invert <;>
    simp [h1, h2, h3, h4]

/-- C7: for a path free of `%s`, `Path` fixup with the default joiner
`&` appends `&%s` when the path already has a query (`?`) and `?%s`
otherwise; a path that already contains `%s` is left unchanged; and the
Scenario A pipeline (`GET http://x.com/a?b=1`, no declared data type)
yields injection place `Path` and stored path `/a?b=1&%s`. -/
theorem path_fixup_query_marker :
    (∀ p b : Str, ∀ dt : DataType, containsSeq sPat p = false →
      fix_path_and_body p b ['&'] InjectionPlace.Path dt =
        some ((if containsSeq ['?'] p then p ++ ['&'] ++ sPat else p ++ "?%s".toList), b)) ∧
    (∀ p b j : Str, ∀ dt : DataType, containsSeq sPat p = true →
      fix_path_and_body p b j InjectionPlace.Path dt = some (p, b)) ∧
    (RequestDefaults.new "GET".toList "/a?b=1".toList [] 0 none none false none false false
        []).map (fun d => (d.injection_place, d.path)) =
      some (InjectionPlace.Path, "/a?b=1&%s".toList) := by
  refine ⟨?_, ?_, by decide⟩
  · intro p b dt hp
    cases hq : containsSeq ['?'] p with
    | true => simp [fix_path_and_body, hp, hq]
    | false => simp [fix_path_and_body, hp, hq]
  · intro p b j dt hp
    simp [fix_path_and_body, hp]

/-- C7 witness: the fixup rule applied at the concrete Scenario A
path. -/
theorem path_fixup_query_marker_wit :
    fix_path_and_body "/a?b=1".toList [] ['&'] InjectionPlace.Path DataType.Urlencoded =
      some ("/a?b=1".toList ++ ['&'] ++ sPat, []) := by
  have h := path_fixup_query_marker.1 "/a?b=1".toList [] DataType.Urlencoded (by decide)
  have hq : containsSeq ['?'] "/a?b=1".toList = true := by decide
  rw [hq] at h
  simpa using h

/-! ### `splitSeq` on a single `'='` (token splitting) -/

theorem take_len_append (a b : Str) : (a ++ b).take a.length = a := by
  induction a with
  | nil => rfl
  | cons c t ih => rw [List.cons_append, List.length_cons, List.take_succ_cons, ih]

theorem drop_len_append (a b : Str) : (a ++ b).drop a.length = b := by
  induction a with
  | nil => rfl
  | cons c t ih => rw [List.cons_append, List.length_cons, List.drop_succ_cons, ih]

theorem splitSeq_eq_none {a : Char} {ta s : Str} (h : findSeq (a :: ta) s = none) :
    splitSeq (a :: ta) s = [s] := by
  rw [splitSeq_eq, h]

theorem splitSeq_eq_some {a : Char} {ta s : Str} {i : Nat} (h : findSeq (a :: ta) s = some i) :
    splitSeq (a :: ta) s = s.take i :: splitSeq (a :: ta) (s.drop (i + (a :: ta).length)) := by
  rw [splitSeq_eq, h]

theorem replaceSeq_eq_some {a : Char} {ta rep s : Str} {i : Nat}
    (h : findSeq (a :: ta) s = some i) :
    replaceSeq (a :: ta) rep s =
      s.take i ++ rep ++ replaceSeq (a :: ta) rep (s.drop (i + (a :: ta).length)) := by
  rw [replaceSeq_eq, h]

theorem splitSeq_cons_shift {a : Char} {ta : Str} {c : Char} {t : Str}
    (h : leadsWith (a :: ta) (c :: t) = false) {h1 : Str} {r : List Str}
    (hs : splitSeq (a :: ta) t = h1 :: r) :
    splitSeq (a :: ta) (c :: t) = (c :: h1) :: r := by
  have hf : findSeq (a :: ta) (c :: t) = (findSeq (a :: ta) t).map (· + 1) := by
    rw [findSeq_cons, h]
    simp
  rw [splitSeq_eq, hf]
  cases hft : findSeq (a :: ta) t with
  | none =>
    rw [splitSeq_eq, hft] at hs
    injection hs with hh hr
    subst hh
    subst hr
    simp
  | some j =>
    rw [splitSeq_eq, hft] at hs
    injection hs with hh hr
    subst hh
    subst hr
    simp only [Option.map_some']
    rw [List.take_succ_cons]
    have hidx : j + 1 + (a :: ta).length = (j + (a :: ta).length) + 1 := by omega
    rw [hidx, List.drop_succ_cons]

theorem splitSeq_head_takeWhile (b : Str) :
    ∃ r, splitSeq ['='] b = b.takeWhile (fun c => decide (c ≠ '=')) :: r := by
  induction b with
  | nil => exact ⟨[], rfl⟩
  | cons c t ih =>
    by_cases hc : c = '='
    · subst hc
      refine ⟨splitSeq ['='] t, ?_⟩
      have hf : findSeq ['='] ('=' :: t) = some 0 := by
        rw [findSeq_cons,
          if_pos (show leadsWith ['='] ('=' :: t) = true from leadsWith_self_append ['='] t)]
      rw [splitSeq_eq_some hf]
      simp [List.takeWhile]
    · obtain ⟨r, hr⟩ := ih
      have hl : leadsWith ['='] (c :: t) = false := by
        rw [leadsWith_cons_cons, if_neg (fun he => hc he.symm)]
      refine ⟨r, ?_⟩
      rw [splitSeq_cons_shift hl hr]
      have htw : (c :: t).takeWhile (fun x => decide (x ≠ '=')) =
          c :: t.takeWhile (fun x => decide (x ≠ '=')) := by
        simp [List.takeWhile, hc]
      rw [htw]

theorem splitParam_eq_first_two (a b : Str) (ha : '=' ∉ a) :
    splitParam (a ++ '=' :: b) = (a, b.takeWhile (fun c => decide (c ≠ '='))) := by
  have hf : findSeq ['='] (a ++ '=' :: b) = some a.length := by
    rw [show ('=' :: b : Str) = ['='] ++ b from rfl, findSeq_append_head_notMem [] _ ha,
      findSeq_self]
    simp
  have hsplit : splitSeq ['='] (a ++ '=' :: b) = a :: splitSeq ['='] b := by
    rw [splitSeq_eq_some hf]
    congr 1
    · exact take_len_append a ('=' :: b)
    · congr 1
      have h1 : a ++ '=' :: b = (a ++ ['=']) ++ b := by simp
      have h2 : a.length + (['='] : Str).length = (a ++ ['=']).length := by simp
      rw [h1, h2, drop_len_append]
  obtain ⟨r, hr⟩ := splitSeq_head_takeWhile b
  unfold splitParam
  rw [hsplit, hr]

/-- C4 (amended): a token of the shape `key=rest` is split by
`Request::prepare` into the segment before the first `'='` and the
segment between the first and second `'='` (or to the end) — not the
whole remainder: `a=b=c` yields `("a","b")` (see
`split_param_drops_tail_cex`), while a trailing `=` yields an empty
value. -/
theorem prepare_split_eq_segments :
    (∀ a b : Str, '=' ∉ a →
      splitParam (a ++ '=' :: b) = (a, b.takeWhile (fun c => decide (c ≠ '=')))) ∧
    splitParam "a=b=c".toList = ("a".toList, "b".toList) ∧
    splitParam "k=".toList = ("k".toList, []) :=
  ⟨fun a b ha => splitParam_eq_first_two a b ha, by decide, by decide⟩

/-- C4 counterexample: the claim says `"a=b=c"` yields `("a","b=c")`;
the code yields `("a","b")`. -/
theorem split_param_drops_tail_cex :
    splitParam "a=b=c".toList = ("a".toList, "b".toList) ∧
    splitParam "a=b=c".toList ≠ ("a".toList, "b=c".toList) :=
  ⟨by decide, by decide⟩

/-- C4 witness: the amended split rule applied at a concrete token. -/
theorem prepare_split_eq_segments_wit :
    splitParam ("a".toList ++ '=' :: "b=c".toList) =
      ("a".toList, "b=c".toList.takeWhile (fun c => decide (c ≠ '='))) :=
  prepare_split_eq_segments.1 "a".toList "b=c".toList (by decide)

/-! ### The JSON bare-word regex -/

theorem rxMatch_cls_inv {f : Char → Bool} {s : Str} (h : RxMatch (Rx.cls f) s) :
    ∃ c, s = [c] ∧ f c = true := by
  cases h with
  | cls f c hc => exact ⟨c, rfl, hc⟩

theorem rxMatch_chr_inv {c : Char} {s : Str} (h : RxMatch (Rx.chr c) s) : s = [c] := by
  cases h
  rfl

theorem rxMatch_star_cls_aux {f : Char → Bool} :
    ∀ {r : Rx} {s : Str}, RxMatch r s → r = Rx.star (Rx.cls f) → s.all f = true := by
  intro r s h
  induction h with
  | chr c => intro he; simp at he
  | cls g c hc => intro he; simp at he
  | cat a b s t hs ht ihs iht => intro he; simp at he
  | altL a b s hs ih => intro he; simp at he
  | altR a b s hs ih => intro he; simp at he
  | starNil a => intro _; rfl
  | starCons a s t hs ht ihs iht =>
    intro he
    injection he with ha
    subst ha
    obtain ⟨c, rfl, hc⟩ := rxMatch_cls_inv hs
    have hrest := iht rfl
    simp [hc, hrest]

theorem rxMatch_star_cls {f : Char → Bool} {t : Str} :
    RxMatch (Rx.star (Rx.cls f)) t ↔ t.all f = true := by
  constructor
  · intro h
    exact rxMatch_star_cls_aux h rfl
  · intro h
    induction t with
    | nil => exact RxMatch.starNil _
    | cons c u ih =>
      rw [List.all_cons, Bool.and_eq_true] at h
      exact RxMatch.starCons (Rx.cls f) [c] u (RxMatch.cls f c h.1) (ih h.2)

theorem rxMatch_strRx {w : Str} (hw : w ≠ []) {v : Str} : RxMatch (strRx w) v ↔ v = w := by
  induction w generalizing v with
  | nil => exact absurd rfl hw
  | cons c t ih =>
    cases t with
    | nil =>
      constructor
      · intro h
        exact rxMatch_chr_inv h
      · rintro rfl
        exact RxMatch.chr c
    | cons d u =>
      constructor
      · intro h
        cases h with
        | cat a b s t' hs ht' =>
          have hs' := rxMatch_chr_inv hs
          subst hs'
          have ht'' := (ih (by simp)).mp ht'
          rw [ht'']
          rfl
      · rintro rfl
        exact RxMatch.cat _ _ [c] (d :: u) (RxMatch.chr c) ((ih (by simp)).mpr rfl)

theorem reJsonBare_iff_rxMatch (v : Str) : reJsonBare v = true ↔ RxMatch jsonBareRx v := by
  constructor
  · intro h
    unfold reJsonBare at h
    simp only [Bool.or_eq_true, beq_iff_eq] at h
    rcases h with ((hm | h1) | h2) | h3
    · cases v with
      | nil => simp at hm
      | cons c rest =>
        simp only [Bool.and_eq_true, decide_eq_true_eq] at hm
        exact RxMatch.altL _ _ _
          (RxMatch.cat _ _ [c] rest (RxMatch.cls _ c (decide_eq_true_eq.mpr hm.1))
            (rxMatch_star_cls.mpr hm.2))
    · subst h1
      exact RxMatch.altR _ _ _ (RxMatch.altL _ _ _ ((rxMatch_strRx (by decide)).mpr rfl))
    · subst h2
      exact RxMatch.altR _ _ _
        (RxMatch.altR _ _ _ (RxMatch.altL _ _ _ ((rxMatch_strRx (by decide)).mpr rfl)))
    · subst h3
      exact RxMatch.altR _ _ _
        (RxMatch.altR _ _ _ (RxMatch.altR _ _ _ ((rxMatch_strRx (by decide)).mpr rfl)))
  · intro h
    unfold reJsonBare
    simp only [Bool.or_eq_true, beq_iff_eq]
    cases h with
    | altL a b s hint =>
      cases hint with
      | cat a2 b2 s2 t2 hs ht =>
        obtain ⟨c, rfl, hc⟩ := rxMatch_cls_inv hs
        have hall := rxMatch_star_cls.mp ht
        left; left; left
        show ((fun x => decide (49 ≤ x.toNat ∧ x.toNat ≤ 57)) c && t2.all isDigitCh) = true
        simp only [hc, hall]
        rfl
    | altR a b s hw =>
      cases hw with
      | altL a2 b2 s2 hn =>
        left; left; right
        exact (rxMatch_strRx (by decide)).mp hn
      | altR a2 b2 s2 hw2 =>
        cases hw2 with
        | altL a3 b3 s3 hf =>
          left; right
          exact (rxMatch_strRx (by decide)).mp hf
        | altR a3 b3 s3 htr =>
          right
          exact (rxMatch_strRx (by decide)).mp htr

/-- C6: in `make_query` with `is_json` set, a value is substituted for
`%v` unquoted exactly when it fully matches the anchored pattern
`[1-9]\d*|null|false|true` (case-sensitively); every other value is
substituted wrapped in double quotes (e.g. `0`, `True`, `012`, the
empty string); with `is_json` unset the value is substituted verbatim.
`reJsonBare` is the executable test used by the model of `make_query`,
`jsonBareRx` the regex itself. -/
theorem make_query_json_quoting :
    (∀ v : Str, reJsonBare v = true ↔ RxMatch jsonBareRx v) ∧
    (∀ v : Str, RxMatch jsonBareRx v ↔
      (v = "true".toList ∨ v = "false".toList ∨ v = "null".toList ∨
        (∃ c rest, v = c :: rest ∧ 49 ≤ c.toNat ∧ c.toNat ≤ 57 ∧
          ∀ d ∈ rest, 48 ≤ d.toNat ∧ d.toNat ≤ 57))) ∧
    (∀ t k v : Str, reJsonBare v = true →
      renderParam t true (k, v) = replaceSeq vPat v (replaceSeq kPat k t)) ∧
    (∀ t k v : Str, reJsonBare v = false →
      renderParam t true (k, v) = replaceSeq vPat ('"' :: v ++ ['"']) (replaceSeq kPat k t)) ∧
    (∀ t k v : Str, renderParam t false (k, v) = replaceSeq vPat v (replaceSeq kPat k t)) ∧
    (renderParam "\"%k\":%v".toList true ("a".toList, "0".toList) = "\"a\":\"0\"".toList ∧
      renderParam "\"%k\":%v".toList true ("a".toList, "12".toList) = "\"a\":12".toList ∧
      renderParam "\"%k\":%v".toList true ("a".toList, "012".toList) = "\"a\":\"012\"".toList ∧
      renderParam "\"%k\":%v".toList true ("a".toList, "True".toList) = "\"a\":\"True\"".toList ∧
      renderParam "\"%k\":%v".toList true ("a".toList, []) = "\"a\":\"\"".toList ∧
      renderParam "\"%k\":%v".toList true ("a".toList, "true".toList) = "\"a\":true".toList) := by
  refine ⟨reJsonBare_iff_rxMatch, ?_, ?_, ?_, ?_, ?_⟩
  · intro v
    rw [← reJsonBare_iff_rxMatch v]
    cases v with
    | nil =>
      constructor
      · intro h
        simp [reJsonBare] at h
      · intro h
        rcases h with h | h | h | ⟨c, rest, h, _⟩ <;> simp_all
    | cons c rest =>
      show ((decide (49 ≤ c.toNat ∧ c.toNat ≤ 57) && rest.all isDigitCh)
          || (c :: rest) == "null".toList || (c :: rest) == "false".toList
          || (c :: rest) == "true".toList) = true ↔ _
      simp only [Bool.or_eq_true, beq_iff_eq, Bool.and_eq_true, decide_eq_true_eq,
        List.all_eq_true, isDigitCh]
      constructor
      · rintro (((⟨⟨h1, h2⟩, hall⟩ | h) | h) | h)
        · exact Or.inr (Or.inr (Or.inr ⟨c, rest, rfl, h1, h2, fun d hd => hall d hd⟩))
        · exact Or.inr (Or.inr (Or.inl h))
        · exact Or.inr (Or.inl h)
        · exact Or.inl h
      · rintro (h | h | h | ⟨c', rest', he, h1, h2, hall⟩)
        · exact Or.inr h
        · exact Or.inl (Or.inr h)
        · exact Or.inl (Or.inl (Or.inr h))
        · refine Or.inl (Or.inl (Or.inl ?_))
          injection he with he1 he2
          subst he1
          subst he2
          exact ⟨⟨h1, h2⟩, fun d hd => hall d hd⟩
  · intro t k v h
    simp [renderParam, h]
  · intro t k v h
    simp [renderParam, h]
  · intro t k v
    simp [renderParam]
  · refine ⟨by decide, by decide, by decide, by decide, by decide, by decide⟩

/-- C6 witness: the unquoted-rendering rule applied at a bare value. -/
theorem make_query_json_quoting_wit :
    renderParam "\"%k\":%v".toList true ("a".toList, "7".toList) =
      replaceSeq vPat "7".toList (replaceSeq kPat "a".toList "\"%k\":%v".toList) :=
  make_query_json_quoting.2.2.1 "\"%k\":%v".toList "a".toList "7".toList (by decide)

/-! ### Header-injection rendering and splitting -/

theorem take_len_add_append (a b : Str) (n : Nat) :
    (a ++ b).take (a.length + n) = a ++ b.take n := by
  induction a with
  | nil => simp
  | cons c t ih =>
    rw [List.cons_append, List.length_cons,
      show t.length + 1 + n = (t.length + n) + 1 from by omega, List.take_succ_cons, ih]
    rfl

theorem drop_len_add_append (a b : Str) (n : Nat) :
    (a ++ b).drop (a.length + n) = b.drop n := by
  induction a with
  | nil => simp
  | cons c t ih =>
    rw [List.cons_append, List.length_cons,
      show t.length + 1 + n = (t.length + n) + 1 from by omega, List.drop_succ_cons, ih]

theorem render_key_headers (k : Str) :
    replaceSeq kPat k HEADERS_TEMPLATE = k ++ (HEADERS_MIDDLE ++ vPat) := by
  have h1 : findSeq ('%' :: ['k']) HEADERS_TEMPLATE = some 0 := by decide
  have h2 : findSeq ('%' :: ['k'])
      (HEADERS_TEMPLATE.drop (0 + ('%' :: ['k'] : Str).length)) = none := by decide
  rw [show (kPat : Str) = '%' :: ['k'] from rfl]
  rw [replaceSeq_eq_some h1, replaceSeq_none h2]
  rw [show HEADERS_TEMPLATE.take 0 = [] from rfl]
  rw [show HEADERS_TEMPLATE.drop (0 + ('%' :: ['k'] : Str).length) =
    HEADERS_MIDDLE ++ vPat from by decide]
  simp

theorem render_value_headers (k v : Str) (hk : '%' ∉ k) :
    replaceSeq vPat v (k ++ (HEADERS_MIDDLE ++ vPat)) = k ++ HEADERS_MIDDLE ++ v := by
  have hf : findSeq ('%' :: ['v']) (k ++ (HEADERS_MIDDLE ++ vPat)) = some (7 + k.length) := by
    rw [findSeq_append_head_notMem ['v'] _ hk,
      show findSeq ('%' :: ['v']) (HEADERS_MIDDLE ++ vPat) = some 7 from by decide]
    rfl
  show replaceSeq ('%' :: ['v']) v (k ++ (HEADERS_MIDDLE ++ vPat)) = k ++ HEADERS_MIDDLE ++ v
  rw [replaceSeq_eq_some hf]
  rw [show 7 + k.length = k.length + 7 from by omega, take_len_add_append]
  rw [show (('%' : Char) :: ['v'] : Str).length = 2 from rfl]
  rw [show k.length + 7 + 2 = k.length + 9 from by omega, drop_len_add_append]
  rw [show (HEADERS_MIDDLE ++ vPat).take 7 = HEADERS_MIDDLE from by decide]
  rw [show (HEADERS_MIDDLE ++ vPat).drop 9 = [] from by decide]
  rw [show replaceSeq ('%' :: ['v']) v [] = [] from rfl]
  simp

theorem renderParam_headers (k v : Str) (hk : '%' ∉ k) :
    renderParam HEADERS_TEMPLATE false (k, v) = k ++ HEADERS_MIDDLE ++ v := by
  show replaceSeq vPat v (replaceSeq kPat k HEADERS_TEMPLATE) = _
  rw [render_key_headers, render_value_headers k v hk]

theorem splitSeq_joinSeq {c : Char} {pt : Str} :
    ∀ es : List Str, es ≠ [] → (∀ e ∈ es, c ∉ e) →
      splitSeq (c :: pt) (joinSeq (c :: pt) es) = es := by
  intro es
  induction es with
  | nil => intro hne _; cases hne rfl
  | cons e es2 ih =>
    intro _ h
    cases es2 with
    | nil =>
      rw [show joinSeq (c :: pt) [e] = e from rfl]
      rw [splitSeq_eq_none (findSeq_none_of_head_notMem pt (h e (List.mem_cons_self _ _)))]
    | cons e2 t =>
      rw [show joinSeq (c :: pt) (e :: e2 :: t) =
        e ++ ((c :: pt) ++ joinSeq (c :: pt) (e2 :: t)) from by simp [joinSeq]]
      have hf : findSeq (c :: pt) (e ++ ((c :: pt) ++ joinSeq (c :: pt) (e2 :: t))) =
          some (0 + e.length) := by
        rw [findSeq_append_head_notMem pt _ (h e (List.mem_cons_self _ _)), findSeq_self]
        rfl
      rw [splitSeq_eq_some hf]
      congr 1
      · rw [Nat.zero_add]
        exact take_len_append e _
      · rw [show 0 + e.length + (c :: pt : Str).length = e.length + (c :: pt : Str).length
          from by omega, drop_len_add_append, drop_len_append]
        exact ih (by simp) (fun e' he' => h e' (List.mem_cons_of_mem _ he'))

theorem splitEntry_parts (k v : Str) (hk : '\x00' ∉ k) (hv : '\x00' ∉ v) :
    splitEntry (k ++ HEADERS_MIDDLE ++ v) = some (k, v) := by
  have hjoin : k ++ HEADERS_MIDDLE ++ v = joinSeq HEADERS_MIDDLE [k, v] := rfl
  have hsplit : splitSeq HEADERS_MIDDLE (k ++ HEADERS_MIDDLE ++ v) = [k, v] := by
    rw [hjoin, show (HEADERS_MIDDLE : Str) = '\x00' :: "@%=%@\x00".toList from by decide]
    refine splitSeq_joinSeq [k, v] (by simp) ?_
    intro e he
    rcases List.mem_cons.mp he with rfl | he2
    · exact hk
    · rcases List.mem_cons.mp he2 with rfl | he3
      · exact hv
      · cases he3
  unfold splitEntry
  rw [hsplit]

theorem splitEntries_map (pairs : List (Str × Str))
    (h : ∀ kv ∈ pairs, '\x00' ∉ kv.1 ∧ '\x00' ∉ kv.2) :
    splitEntries (pairs.map (fun kv => kv.1 ++ HEADERS_MIDDLE ++ kv.2)) = some pairs := by
  induction pairs with
  | nil => rfl
  | cons p t ih =>
    obtain ⟨h1, h2⟩ := h p (List.mem_cons_self _ _)
    rw [List.map_cons]
    show (match splitEntry (p.1 ++ HEADERS_MIDDLE ++ p.2),
        splitEntries (t.map (fun kv => kv.1 ++ HEADERS_MIDDLE ++ kv.2)) with
      | some q, some ps => some (q :: ps)
      | _, _ => none) = some (p :: t)
    rw [splitEntry_parts p.1 p.2 h1 h2, ih (fun kv hkv => h kv (List.mem_cons_of_mem _ hkv))]

/-- C8 (amended): with the default header template and joiner, when the
`encode` flag is off and every key is free of `%`, `\x00` and `\x01`
and every value is free of `\x00` and `\x01`, the `Headers`-arm split
of the rendered query always succeeds and recovers exactly the
`(name, value)` pairs in order.  The claim's "including when the encode
flag is set" is refuted by `headers_split_encode_cex`: percent-encoding
destroys the `\x00`/`\x01` separator bytes, so the second-component
extraction panics. -/
theorem headers_split_roundtrip (pairs : List (Str × Str))
    (h : ∀ kv ∈ pairs, '%' ∉ kv.1 ∧ '\x00' ∉ kv.1 ∧ '\x01' ∉ kv.1 ∧
      '\x00' ∉ kv.2 ∧ '\x01' ∉ kv.2) :
    headersFromQuery HEADERS_JOINER
      (makeQueryParams HEADERS_TEMPLATE HEADERS_JOINER false false pairs) = some pairs := by
  cases pairs with
  | nil => decide
  | cons p t =>
    have hmap : (p :: t).map (renderParam HEADERS_TEMPLATE false) =
        (p :: t).map (fun kv => kv.1 ++ HEADERS_MIDDLE ++ kv.2) := by
      apply List.map_congr_left
      intro kv hkv
      exact renderParam_headers kv.1 kv.2 (h kv hkv).1
    unfold makeQueryParams headersFromQuery
    simp only [Bool.false_eq_true, if_false, hmap]
    have hsplit : splitSeq HEADERS_JOINER
        (joinSeq HEADERS_JOINER ((p :: t).map (fun kv => kv.1 ++ HEADERS_MIDDLE ++ kv.2))) =
        (p :: t).map (fun kv => kv.1 ++ HEADERS_MIDDLE ++ kv.2) := by
      rw [show (HEADERS_JOINER : Str) = '\x01' :: "@%&%@\x01".toList from by decide]
      refine splitSeq_joinSeq _ (by simp) ?_
      intro e he
      rw [List.mem_map] at he
      obtain ⟨kv, hkv, rfl⟩ := he
      intro hmem
      rcases List.mem_append.mp hmem with hmem2 | hv
      · rcases List.mem_append.mp hmem2 with hk | hm
        · exact (h kv hkv).2.2.1 hk
        · exact absurd hm (by decide)
      · exact (h kv hkv).2.2.2.2 hv
    rw [hsplit]
    have hfilter : ((p :: t).map (fun kv => kv.1 ++ HEADERS_MIDDLE ++ kv.2)).filter
        (fun x => !x.isEmpty) = (p :: t).map (fun kv => kv.1 ++ HEADERS_MIDDLE ++ kv.2) := by
      apply List.filter_eq_self.mpr
      intro e he
      rw [List.mem_map] at he
      obtain ⟨kv, hkv, rfl⟩ := he
      simp [HEADERS_MIDDLE]
    rw [hfilter]
    exact splitEntries_map (p :: t) (fun kv hkv => ⟨(h kv hkv).2.1, (h kv hkv).2.2.2.1⟩)

/-- C8 counterexample: under `Headers` injection with `encode` set, the
percent-encoding step rewrites the separator bytes, the rendered query
no longer splits, and the second `unwrap()` of `Request::prepare`
panics (modelled as `none`) — already for a single parameter. -/
theorem headers_split_encode_cex :
    prepare (fun _ => "a".toList) 0
      (Request.new
        { method := "GET".toList,
          custom_headers := [],
          delay := 0,
          template := HEADERS_TEMPLATE,
          joiner := HEADERS_JOINER,
          encode := true,
          is_json := false,
          body := [],
          parameters := [],
          injection_place := InjectionPlace.Headers,
          path := "/".toList }
        ["x".toList]) = none := by
  decide

/-- C8 witness: the amended round-trip applied at one concrete pair. -/
theorem headers_split_roundtrip_wit :
    headersFromQuery HEADERS_JOINER
      (makeQueryParams HEADERS_TEMPLATE HEADERS_JOINER false false
        [("x".toList, "a".toList)]) = some [("x".toList, "a".toList)] :=
  headers_split_roundtrip [("x".toList, "a".toList)] (by decide)

/-! ### `prepare` projections -/

theorem inferContentType_fields (r : Request) :
    (inferContentType r).prepared_parameters = r.prepared_parameters ∧
    (inferContentType r).non_random_parameters = r.non_random_parameters ∧
    (inferContentType r).prepared = r.prepared := by
  unfold inferContentType
  split
  · exact ⟨rfl, rfl, rfl⟩
  · exact ⟨rfl, rfl, rfl⟩

theorem prepareInject_preserves (g : Nat → Str) (st : Request × Nat) (r' : Request) (i' : Nat)
    (h : prepareInject g st = some (r', i')) :
    r'.prepared_parameters = st.1.prepared_parameters ∧
    r'.non_random_parameters = st.1.non_random_parameters ∧
    r'.prepared = st.1.prepared := by
  unfold prepareInject at h
  cases hip : st.1.defaults.injection_place with
  | Path =>
    simp only [hip, Option.some.injEq, Prod.mk.injEq] at h
    obtain ⟨h1, h2⟩ := h
    subst h1
    exact ⟨rfl, rfl, rfl⟩
  | Body =>
    simp only [hip] at h
    split at h <;> [skip; split at h] <;>
      (simp only [Option.some.injEq, Prod.mk.injEq] at h
       obtain ⟨h1, h2⟩ := h
       subst h1
       exact ⟨rfl, rfl, rfl⟩)
  | HeaderValue =>
    simp only [hip, Option.some.injEq, Prod.mk.injEq] at h
    obtain ⟨h1, h2⟩ := h
    subst h1
    exact ⟨(inferContentType_fields st.1).1, (inferContentType_fields st.1).2.1,
      (inferContentType_fields st.1).2.2⟩
  | Headers =>
    simp only [hip] at h
    split at h
    · cases h
    · simp only [Option.some.injEq, Prod.mk.injEq] at h
      obtain ⟨h1, h2⟩ := h
      subst h1
      exact ⟨(inferContentType_fields st.1).1, (inferContentType_fields st.1).2.1,
        (inferContentType_fields st.1).2.2⟩

theorem prepareStage1_headers_of_ne (g : Nat → Str) (i0 : Nat) (r : Request)
    (h : r.defaults.injection_place ≠ InjectionPlace.HeaderValue) :
    (prepareStage1 g i0 r).1.headers =
      r.headers ++ drawHeaderValues g
        (i0 + (r.parameters.filter (fun x => !x.isEmpty && !containsSeq ['='] x)).length)
        r.defaults.custom_headers := by
  unfold prepareStage1
  show (if r.defaults.injection_place ≠ InjectionPlace.HeaderValue then
      r.headers ++ drawHeaderValues g
        (i0 + (r.parameters.filter (fun x => !x.isEmpty && !containsSeq ['='] x)).length)
        r.defaults.custom_headers
    else r.headers) = _
  rw [if_pos h]

theorem prepare_prepared {r : Request} (g : Nat → Str) (i0 : Nat) (h : r.prepared = true) :
    prepare g i0 r = some (r, i0) := by
  unfold prepare
  rw [if_pos h]

theorem prepare_some_prepared {g : Nat → Str} {i0 : Nat} {r r' : Request} {i' : Nat}
    (h : prepare g i0 r = some (r', i')) : r'.prepared = true := by
  unfold prepare at h
  by_cases h0 : r.prepared = true
  · rw [if_pos h0] at h
    simp only [Option.some.injEq, Prod.mk.injEq] at h
    obtain ⟨h1, h2⟩ := h
    subst h1
    exact h0
  · rw [if_neg h0] at h
    rw [(prepareInject_preserves _ _ _ _ h).2.2]
    rfl

/-- C5: after a successful `prepare`, `non_random_parameters` is the
list of `'='`-containing tokens split in token order, and
`prepared_parameters` is the pre-seeded list, followed by
`non_random_parameters`, followed by one `(name, fresh random draw)`
pair per non-empty bare token, in original order (empty tokens
contribute nothing). -/
theorem prepare_parameter_order (g : Nat → Str) (i0 : Nat) (r r' : Request) (i' : Nat)
    (h0 : r.prepared = false) (h : prepare g i0 r = some (r', i')) :
    r'.non_random_parameters =
      (r.parameters.filter (fun x => containsSeq ['='] x)).map splitParam ∧
    r'.prepared_parameters =
      r.prepared_parameters ++
        (r.parameters.filter (fun x => containsSeq ['='] x)).map splitParam ++
        drawValues g i0 (r.parameters.filter (fun x => !x.isEmpty && !containsSeq ['='] x)) := by
  unfold prepare at h
  rw [if_neg (by rw [h0]; simp)] at h
  have hp := prepareInject_preserves g _ _ _ h
  constructor
  · rw [hp.2.1]
    rfl
  · rw [hp.1]
    rfl

/-- C5 witness: Scenario E — parameters `["admin=true", "x", ""]` give
`non_random_parameters = [("admin","true")]` and `prepared_parameters`
equal to `("admin","true")` followed by `("x", <random>)`, with the
empty token contributing nothing. -/
theorem prepare_parameter_order_wit :
    (prepare wRng 0 scenarioEReq).map
      (fun x => (x.1.non_random_parameters, x.1.prepared_parameters)) =
    some ([("admin".toList, "true".toList)],
      [("admin".toList, "true".toList), ("x".toList, "a".toList)]) := by
  cases h : prepare wRng 0 scenarioEReq with
  | none =>
    have hs : (prepare wRng 0 scenarioEReq).isSome = true := by decide
    rw [h] at hs
    simp at hs
  | some pr =>
    have hth := prepare_parameter_order wRng 0 scenarioEReq pr.1 pr.2 rfl h
    simp only [Option.map_some']
    rw [hth.1, hth.2]
    decide

/-- C9: `prepare` is idempotent — an already-prepared request is
returned unchanged with the draw counter untouched (no fresh random
draws), and any second `prepare` of a successfully prepared request is
such a no-op. -/
theorem prepare_idempotent :
    (∀ (g : Nat → Str) (i0 : Nat) (r : Request), r.prepared = true →
      prepare g i0 r = some (r, i0)) ∧
    (∀ (g : Nat → Str) (i0 : Nat) (r r' : Request) (i' : Nat) (g2 : Nat → Str) (i2 : Nat),
      prepare g i0 r = some (r', i') → prepare g2 i2 r' = some (r', i2)) :=
  ⟨fun g i0 r h => prepare_prepared g i0 h,
   fun g i0 r r' i' g2 i2 h => prepare_prepared g2 i2 (prepare_some_prepared h)⟩

/-- C9 witness: idempotence applied at a concrete prepared request. -/
theorem prepare_idempotent_wit :
    prepare wRng 0 preparedReq = some (preparedReq, 0) :=
  prepare_idempotent.1 wRng 0 preparedReq rfl

/-- C10: the default-Content-Type check of `prepare` compares custom
header names case-sensitively against the exact string
`"Content-Type"`: a custom header named `"content-type"` does not
suppress the default under `Body` injection, so the prepared request
carries both that header and the added `Content-Type` one. -/
theorem content_type_case_sensitive (g : Nat → Str) (i0 del : Nat)
    (v meth tmpl joi body0 path0 : Str) (isj enc : Bool) (ps : List (Str × Str))
    (tokens : List Str) :
    contains_key [("content-type".toList, v)] ctKey = false ∧
    ∃ r' i', prepare g i0 (Request.new
        { method := meth,
          custom_headers := [("content-type".toList, v)],
          delay := del,
          template := tmpl,
          joiner := joi,
          encode := enc,
          is_json := isj,
          body := body0,
          parameters := ps,
          injection_place := InjectionPlace.Body,
          path := path0 } tokens) = some (r', i') ∧
      (∃ w, ("content-type".toList, w) ∈ r'.headers) ∧
      (ctKey, if isj then ctJson else ctUrlencoded) ∈ r'.headers := by
  constructor
  · simp only [contains_key, List.any_cons, List.any_nil, Bool.or_false]
    decide
  · cases isj with
    | false =>
      refine ⟨_, _, rfl, ?_, ?_⟩
      · refine ⟨replaceSeq rndPat
          (g (i0 + (tokens.filter (fun x => !x.isEmpty && !containsSeq ['='] x)).length)) v, ?_⟩
        simp only [List.mem_append]
        left
        rw [prepareStage1_headers_of_ne g i0 _ (by simp [Request.new])]
        simp [Request.new, drawHeaderValues]
      · simp
    | true =>
      refine ⟨_, _, rfl, ?_, ?_⟩
      · refine ⟨replaceSeq rndPat
          (g (i0 + (tokens.filter (fun x => !x.isEmpty && !containsSeq ['='] x)).length)) v, ?_⟩
        simp only [List.mem_append]
        left
        rw [prepareStage1_headers_of_ne g i0 _ (by simp [Request.new])]
        simp [Request.new, drawHeaderValues]
      · simp

/-- C2 (amended): `send_by` issues the prepared request once and, on a
transport failure, sleeps a fixed 10 seconds and retries exactly once
on a fresh clone of the same request; a second failure propagates with
no further attempt, and a completed response is returned whatever its
status code (non-2xx is never retried).  Because each clone is taken
from the original (possibly unprepared) request, the retry re-runs
`prepare`; the two attempts are byte-identical when the request was
prepared before sending (`r.prepared = true`), but an unprepared
request draws fresh random values on retry (see
`send_by_reprepare_cex`), contrary to the claim's "byte-identical ...
same random values" for every request. -/
theorem send_by_retry (g : Nat → Str) (i0 : Nat) (r : Request) (ev1 ev2 : List Ev)
    (r1 r2 : Request) (i1 i2 : Nat)
    (h1 : requestTrace g i0 r = some (ev1, r1, i1))
    (h2 : requestTrace g i1 r = some (ev2, r2, i2)) :
    (∀ c : Nat, ∀ o2 : Option Nat, send_by g i0 r (some c) o2 = (ev1, some (r1, c))) ∧
    (∀ c : Nat, send_by g i0 r none (some c) =
      (ev1 ++ Ev.sleepMs 10000 :: ev2, some (r2, c))) ∧
    (send_by g i0 r none none = (ev1 ++ Ev.sleepMs 10000 :: ev2, none)) ∧
    execCount ev1 = 1 ∧
    execCount (ev1 ++ Ev.sleepMs 10000 :: ev2) = 2 ∧
    (r.prepared = true → ev2 = ev1 ∧ r2 = r1) := by
  have hshape1 : ev1 = [Ev.sleepMs r.defaults.delay, Ev.exec r1.path r1.headers r1.body] := by
    unfold requestTrace at h1
    cases hp : prepare g i0 r with
    | none => rw [hp] at h1; cases h1
    | some pr =>
      rw [hp] at h1
      simp only [Option.some.injEq, Prod.mk.injEq] at h1
      rw [← h1.1, h1.2.1]
  have hshape2 : ev2 = [Ev.sleepMs r.defaults.delay, Ev.exec r2.path r2.headers r2.body] := by
    unfold requestTrace at h2
    cases hp : prepare g i1 r with
    | none => rw [hp] at h2; cases h2
    | some pr =>
      rw [hp] at h2
      simp only [Option.some.injEq, Prod.mk.injEq] at h2
      rw [← h2.1, h2.2.1]
  refine ⟨?_, ?_, ?_, ?_, ?_, ?_⟩
  · intro c o2
    simp [send_by, h1]
  · intro c
    simp [send_by, h1, h2]
  · simp [send_by, h1, h2]
  · rw [hshape1]
    rfl
  · rw [hshape1, hshape2]
    rfl
  · intro hprep
    have hp1 : requestTrace g i0 r =
        some ([Ev.sleepMs r.defaults.delay, Ev.exec r.path r.headers r.body], r, i0) := by
      unfold requestTrace
      rw [prepare_prepared g i0 hprep]
    rw [hp1] at h1
    simp only [Option.some.injEq, Prod.mk.injEq] at h1
    obtain ⟨he1, hr1, hi1⟩ := h1
    have hp2 : requestTrace g i1 r =
        some ([Ev.sleepMs r.defaults.delay, Ev.exec r.path r.headers r.body], r, i1) := by
      unfold requestTrace
      rw [prepare_prepared g i1 hprep]
    rw [hp2] at h2
    simp only [Option.some.injEq, Prod.mk.injEq] at h2
    obtain ⟨he2, hr2, hi2⟩ := h2
    constructor
    · rw [← he1, ← he2]
    · rw [← hr1, ← hr2]

/-- C2 counterexample: an unprepared request re-prepares on the retry,
so with a transport failure on the first attempt the two executed
requests differ — here the injected random value changes from `a` to
`aaaa`, so the sent paths are not byte-identical. -/
theorem send_by_reprepare_cex :
    (send_by wRng 0 (Request.new pathDefaults ["x".toList]) none (some 200)).1 =
      [Ev.sleepMs 0, Ev.exec "/a?x=a".toList [] [],
        Ev.sleepMs 10000,
        Ev.sleepMs 0, Ev.exec "/a?x=aaaa".toList [] []] ∧
    ("/a?x=a".toList : Str) ≠ "/a?x=aaaa".toList := by
  refine ⟨by decide, by decide⟩

/-- C2 witness: the retry protocol applied at a concrete prepared
request with two transport failures: two sends of identical bytes,
separated by the 10-second cooldown, and a propagated failure. -/
theorem send_by_retry_wit :
    send_by wRng 0 preparedReq none none =
      ([Ev.sleepMs 0, Ev.exec preparedReq.path preparedReq.headers preparedReq.body,
        Ev.sleepMs 10000,
        Ev.sleepMs 0, Ev.exec preparedReq.path preparedReq.headers preparedReq.body], none) ∧
    execCount [Ev.sleepMs 0,
      Ev.exec preparedReq.path preparedReq.headers preparedReq.body] = 1 := by
  have h1 : requestTrace wRng 0 preparedReq =
      some ([Ev.sleepMs 0, Ev.exec preparedReq.path preparedReq.headers preparedReq.body],
        preparedReq, 0) := by
    unfold requestTrace
    rw [prepare_prepared wRng 0 rfl]
    rfl
  have hth := send_by_retry wRng 0 preparedReq _ _ _ _ 0 0 h1 h1
  exact ⟨hth.2.2.1, hth.2.2.2.1⟩
